import Mathlib

/-!
Verification of the Bill-Tracker fetch-orchestration and caching layer.

The definitions below are a shallow embedding of the TypeScript sources:

* `Aggregator.fetchAllBills` and its caching logic (src/unnamed/part_000,
  the cached variant);
* the `Bill` interface (src/unnamed/part_001);
* `ScrapeProvider.determineStatus` (src/unnamed/part_006);
* the session-persisting `ATTProvider` (src/src/providers/att.ts):
  `tryRestoreSession`, `login`/`saveSession` and the session-establishment
  prefix of `fetch`.

JavaScript machine dates are modelled as integer epoch milliseconds.  A
value that may be either a `Date` object or a JSON-decoded string is
modelled by the sum type `DueDate`; calling `.getTime()` on a string
throws a `TypeError`, which we model in the `Except JsError` monad.
-/

namespace BillTracker

/-- JavaScript runtime errors relevant to the embedded code: `TypeError`
(calling `.getTime()` on a non-Date), `SyntaxError` (from `JSON.parse` on
corrupt input), and arbitrary errors thrown by provider `fetch()`
implementations, identified by a numeric code. -/
inductive JsError where
  | typeError
  | syntaxError
  | thrown (code : Nat)
deriving DecidableEq, Repr

/-- The value held in a bill's `dueDate` (or `lastUpdated`) slot at run
time.  A live fetch produces a `Date` object (`date ms`); a bill decoded
from a JSON cache file holds the serialized ISO string (`str s`). -/
inductive DueDate where
  | date (ms : Int)
  | str (s : String)
deriving DecidableEq, Repr

/-- The `Bill.category` enumeration from src/unnamed/part_001. -/
inductive Category where
  | utility | bank | credit | insurance | subscription | other
deriving DecidableEq, Repr

/-- The `Bill.status` enumeration from src/unnamed/part_001. -/
inductive Status where
  | pending | due | overdue | paid
deriving DecidableEq, Repr

/-- The `Bill` interface from src/unnamed/part_001.  `amount` is a JS
number used only for display; no property proved here touches it, so an
integer stand-in suffices. -/
structure Bill where
  provider : String
  category : Category
  amount : Int
  currency : String
  dueDate : DueDate
  status : Status
  lastUpdated : DueDate
  payUrl : Option String := none
  accountLast4 : Option String := none
deriving DecidableEq, Repr

/-- A provider's `fetch()` resolves with `Bill | Bill[]`. -/
inductive FetchVal where
  | single (b : Bill)
  | many (bs : List Bill)
deriving DecidableEq, Repr

/-- Normalization `const bills = Array.isArray(result) ? result : [result]`
(src/unnamed/part_000). -/
def normalizeFetch : FetchVal → List Bill
  | .single b => [b]
  | .many bs => bs

/-- A provider as the aggregator sees it: a name, a category, and the
outcome its `fetch()` produces in the run under consideration (resolve
with a value, or reject with an error). -/
structure Provider where
  name : String
  category : Category
  fetchResult : Except JsError FetchVal
deriving Repr

/-- The state of one provider's cache file `data/<name>.json`:
missing (`fs.existsSync` false), present but unparsable (`JSON.parse`
throws), or a parsed `{timestamp, bills}` entry. -/
inductive CacheFile where
  | absent
  | corrupt
  | entry (timestamp : Int) (bills : List Bill)
deriving DecidableEq, Repr

/-- Constant `const CACHE_TTL = 24 * 60 * 60 * 1000` (src/unnamed/part_000). -/
def CACHE_TTL : Int := 24 * 60 * 60 * 1000

/-- Model of `Date.prototype.toISOString` used by `JSON.stringify` on a
`Date`.  Every property proved here depends only on the result being a
string, never on its text, so an injective rendering of the millisecond
count stands in for the ISO-8601 text. -/
def toISOString (ms : Int) : String := toString ms

/-- JSON round-trip of one date slot: a `Date` serializes to its ISO
string and decodes back as that string; a string stays a string. -/
def jsonDate : DueDate → DueDate
  | .date ms => .str (toISOString ms)
  | .str s => .str s

/-- JSON round-trip of one `Bill`: the two date-typed fields come back as
strings, everything else is unchanged. -/
def jsonBill (b : Bill) : Bill :=
  { b with dueDate := jsonDate b.dueDate, lastUpdated := jsonDate b.lastUpdated }

/-- Method `Aggregator.saveCache`: writes `{timestamp: Date.now(), provider,
bills}` through `JSON.stringify`; the cache file a later read will parse
therefore holds the bills with string-valued date fields. -/
def saveCache (now : Int) (bills : List Bill) : CacheFile :=
  .entry now (bills.map jsonBill)

/-- Outcome of one provider's mapped task inside `Promise.allSettled`:
the settled promise (`fulfilled` with bills, or `rejected`), the state of
the provider's cache file after the task, and whether `provider.fetch()`
was invoked. -/
structure TaskResult where
  settled : Except JsError (List Bill)
  newCache : CacheFile
  fetchCalled : Bool
deriving Repr

/-- The fetch-then-fallback part of the mapped task (the `try`/`catch`
block of `fetchAllBills`): invoke `provider.fetch()`; on success normalize
to a list and write the cache; on failure re-read the cache file, using it
regardless of age when it parses, rejecting the task when it is corrupt
(the `JSON.parse` inside the `catch` throws), and contributing `[]` when
it does not exist. -/
def fetchPath (now : Int) (p : Provider) (cache : CacheFile) : TaskResult :=
  match p.fetchResult with
  | .ok v =>
      let bills := normalizeFetch v
      ⟨.ok bills, saveCache now bills, true⟩
  | .error _ =>
      match cache with
      | .entry _ bills => ⟨.ok bills, cache, true⟩
      | .corrupt => ⟨.error .syntaxError, cache, true⟩
      | .absent => ⟨.ok [], cache, true⟩

/-- One provider's mapped task in `Aggregator.fetchAllBills`
(src/unnamed/part_000): unless the force flag is set, an existing cache
file is parsed — a corrupt file makes `JSON.parse` throw *outside* the
`try` block, rejecting the task before `fetch()` is reached — and a fresh
entry (`Date.now() - cached.timestamp < CACHE_TTL`) is returned without
fetching; otherwise control falls through to the fetch path. -/
def providerTask (forceFetch : Bool) (now : Int) (p : Provider) (cache : CacheFile) :
    TaskResult :=
  match forceFetch, cache with
  | false, .corrupt => ⟨.error .syntaxError, .corrupt, false⟩
  | false, .entry ts bills =>
      if now - ts < CACHE_TTL then ⟨.ok bills, .entry ts bills, false⟩
      else fetchPath now p (.entry ts bills)
  | _, _ => fetchPath now p cache

/-- Step `Promise.allSettled(this.providers.map(...))`: every task settles;
the run is a list of providers each paired with the current state of its
own cache file (cache files are per-provider, keyed by the lower-cased
provider name). -/
def runTasks (forceFetch : Bool) (now : Int) (run : List (Provider × CacheFile)) :
    List TaskResult :=
  run.map (fun pc => providerTask forceFetch now pc.1 pc.2)

/-- Projection `r.status === 'fulfilled' ? r.value : []` — a rejected task
contributes no bills to the merge. -/
def settledBills (r : TaskResult) : List Bill :=
  match r.settled with
  | .ok v => v
  | .error _ => []

/-- The concatenated merge `results.flatMap(...)` of all per-provider
contributions, before the final sort. -/
def mergedBills (forceFetch : Bool) (now : Int) (run : List (Provider × CacheFile)) :
    List Bill :=
  (runTasks forceFetch now run).flatMap settledBills

/-- Call `d.getTime()`: a `Date` yields its epoch milliseconds; on a string the
method does not exist and the call throws a `TypeError`. -/
def getTime : DueDate → Except JsError Int
  | .date ms => .ok ms
  | .str _ => .error .typeError

/-- The sort comparator `(a, b) => a.dueDate.getTime() - b.dueDate.getTime()`:
evaluate the left operand's `getTime`, then the right one's, propagating
the first throw. -/
def cmpBills (a b : Bill) : Except JsError Int :=
  match getTime a.dueDate with
  | .error e => .error e
  | .ok x =>
      match getTime b.dueDate with
      | .error e => .error e
      | .ok y => .ok (x - y)

/-- Insertion step of the stable comparison sort: `x` is placed before the
first element it compares strictly less than (`comparator < 0`), hence
after every element with an equal key — the stability contract of
`Array.prototype.sort`.  A throwing comparator aborts the sort. -/
def insertE (x : Bill) : List Bill → Except JsError (List Bill)
  | [] => .ok [x]
  | y :: ys =>
      match cmpBills x y with
      | .error e => .error e
      | .ok c =>
          if c < 0 then .ok (x :: y :: ys)
          else
            match insertE x ys with
            | .error e => .error e
            | .ok zs => .ok (y :: zs)

/-- Left fold of `insertE` over the merge-arrival order. -/
def sortGo (acc : List Bill) : List Bill → Except JsError (List Bill)
  | [] => .ok acc
  | x :: xs =>
      match insertE x acc with
      | .ok acc' => sortGo acc' xs
      | .error e => .error e

/-- Model of `.sort((a, b) => a.dueDate.getTime() - b.dueDate.getTime())`:
a stable comparison sort in which every element of a list of length at
least two takes part in at least one comparison, and any comparator throw
propagates (rejecting the surrounding `async` function). -/
def sortBillsE (l : List Bill) : Except JsError (List Bill) :=
  sortGo [] l

/-- Method `Aggregator.fetchAllBills` end to end: settle every provider task,
merge the fulfilled contributions, sort by due date.  The promise either
resolves with the sorted list or rejects with the comparator's error. -/
def fetchAllBills (forceFetch : Bool) (now : Int) (run : List (Provider × CacheFile)) :
    Except JsError (List Bill) :=
  sortBillsE (mergedBills forceFetch now run)

/-- Proposition that a bill's due-date slot holds a `Date`, so that the
comparator's `getTime` call on it succeeds. -/
def okKey (b : Bill) : Prop := ∃ k, getTime b.dueDate = Except.ok k

/-- Ordering used to state sortedness of the output: both `getTime` calls
succeed and the keys are non-decreasing. -/
def leKey (a b : Bill) : Prop :=
  ∃ x y, getTime a.dueDate = Except.ok x ∧ getTime b.dueDate = Except.ok y ∧ x ≤ y

/-- Boolean test that the bill's sort key is exactly `t`. -/
def keyIs (t : Int) (b : Bill) : Bool :=
  match getTime b.dueDate with
  | .ok x => x == t
  | .error _ => false

/-- Method `ScrapeProvider.determineStatus` (src/unnamed/part_006): both the
current time and the due date compare as epoch milliseconds. -/
def determineStatus (now dueDate : Int) : Status :=
  if dueDate < now then .overdue
  else if dueDate ≤ now + 7 * 24 * 60 * 60 * 1000 then .due
  else .pending

/-! Session persistence of the AT&T provider (src/src/providers/att.ts). -/

namespace ATT

/-- The parsed content of `sessions/att-session.json` as written by
`saveSession`: `{savedAt, expiresAt, data: [{name, value}]}`. -/
structure SessionData where
  savedAt : Int
  expiresAt : Int
  data : List (String × String)
deriving DecidableEq, Repr

/-- State of the session file on disk: missing, unparsable, or a parsed
record. -/
inductive SessionFile where
  | absent
  | corrupt
  | record (r : SessionData)
deriving DecidableEq, Repr

/-- Whether `sub` occurs at the head of `s` (over character lists). -/
def startsWithChars : List Char → List Char → Bool
  | [], _ => true
  | _ :: _, [] => false
  | a :: as, b :: bs => a == b && startsWithChars as bs

/-- Whether `sub` occurs anywhere in `s` (over character lists). -/
def containsChars (sub : List Char) : List Char → Bool
  | [] => sub.isEmpty
  | c :: cs => startsWithChars sub (c :: cs) || containsChars sub cs

/-- Model of `String.prototype.includes`: substring containment. -/
def jsIncludes (s sub : String) : Bool := containsChars sub.data s.data

/-- The behaviour of the `agent-browser` subprocess in one run:
what `get url` reports after the cookie-injection navigation of
`tryRestoreSession`, and what `cookies` prints during `saveSession`
(`exec` swallows subprocess failures and yields the empty string). -/
structure BrowserEnv where
  urlAfterRestore : String
  cookiesRaw : String
deriving DecidableEq, Repr

/-- Method `ATTProvider.tryRestoreSession`: a missing file reports failure; a
corrupt file makes `JSON.parse` throw inside the method's `try`, caught
as failure; a record whose truthy `expiresAt` lies strictly in the past
(`cookies.expiresAt && now > cookies.expiresAt`) reports failure; any
other record is restored (reopen the origin, inject the cookies,
re-navigate) and verified by checking that the reported URL contains
`overview` or `myatt`. -/
def tryRestoreSession (now : Int) (file : SessionFile) (env : BrowserEnv) : Bool :=
  match file with
  | .absent => false
  | .corrupt => false
  | .record r =>
      if r.expiresAt ≠ 0 ∧ now > r.expiresAt then false
      else jsIncludes env.urlAfterRestore "overview" || jsIncludes env.urlAfterRestore "myatt"

/-- JavaScript `String.prototype.split` with a one-character separator,
over character lists.  `"".split(c)` yields `[""]`, matching JS. -/
def splitOnChar (sep : Char) : List Char → List (List Char)
  | [] => [[]]
  | c :: cs =>
      match splitOnChar sep cs, c == sep with
      | r, true => [] :: r
      | [], false => [[c]]
      | g :: gs, false => (c :: g) :: gs

/-- JavaScript `String.prototype.trim` over character lists. -/
def trimChars (cs : List Char) : List Char :=
  ((cs.dropWhile Char.isWhitespace).reverse.dropWhile Char.isWhitespace).reverse

/-- Join `valueParts.join('=')` over character lists. -/
def joinEq : List (List Char) → List Char
  | [] => []
  | [g] => g
  | g :: gs => g ++ '=' :: joinEq gs

/-- One pair of the cookie parser in `saveSession`:
`const [name, ...valueParts] = pair.split('=')`, kept only when `name` is
truthy and `valueParts` is non-empty, with `value = valueParts.join('=')`. -/
def parseCookiePair (pair : List Char) : Option (String × String) :=
  match splitOnChar '=' pair with
  | [] => none
  | [_] => none
  | name :: rest =>
      if name.isEmpty then none
      else some (String.mk name, String.mk (joinEq rest))

/-- The cookie parser of `saveSession`: split the raw `cookies` output on
semicolons, trim each piece, drop empties, and parse each remaining pair. -/
def parseCookies (raw : String) : List (String × String) :=
  ((((splitOnChar ';' raw.data).map trimChars).filter
      (fun c => !c.isEmpty)).filterMap parseCookiePair)

/-- The record `saveSession` persists at time `now`. -/
def saveSession (now : Int) (env : BrowserEnv) : SessionData :=
  { savedAt := now
    expiresAt := now + 24 * 60 * 60 * 1000
    data := parseCookies env.cookiesRaw }

/-- The session-establishment prefix of `ATTProvider.fetch`: attempt
`tryRestoreSession`; when it fails, run the `login` sequence, which ends
by overwriting the session file through `saveSession`.  Returns whether
the login sequence was invoked, together with the session file after the
phase. -/
def ensureSession (now : Int) (file : SessionFile) (env : BrowserEnv) :
    Bool × SessionFile :=
  if tryRestoreSession now file env then (false, file)
  else (true, .record (saveSession now env))

end ATT

/-! Concrete inputs used by the witness and counterexample theorems. -/

/-- A bill whose due date is a live `Date` with the given milliseconds. -/
def dateBill (ms : Int) : Bill :=
  { provider := "p", category := .utility, amount := 10, currency := "USD",
    dueDate := .date ms, status := .pending, lastUpdated := .date 0 }

/-- A bill as decoded from a JSON cache file: string-valued date slots. -/
def strBill (s : String) : Bill :=
  { provider := "p", category := .utility, amount := 10, currency := "USD",
    dueDate := .str s, status := .pending, lastUpdated := .str s }

/-- A provider whose `fetch()` rejects in the run under consideration. -/
def provA : Provider :=
  { name := "A", category := .utility, fetchResult := .error (.thrown 0) }

/-- A provider whose `fetch()` resolves with one date-valued bill. -/
def provB : Provider :=
  { name := "B", category := .utility, fetchResult := .ok (.many [dateBill 5]) }

/-- Providers for the ordering witness, with due-date keys mimicking the
spec's example dates 03-01, 02-10 and 02-20. -/
def provC : Provider :=
  { name := "C", category := .utility, fetchResult := .ok (.single (dateBill 301)) }

/-- Second ordering-witness provider. -/
def provD : Provider :=
  { name := "D", category := .utility, fetchResult := .ok (.single (dateBill 210)) }

/-- Third ordering-witness provider. -/
def provE : Provider :=
  { name := "E", category := .utility, fetchResult := .ok (.single (dateBill 220)) }

/-! Lemmas about the comparator and the stable sort model. -/

theorem getTime_error {d : DueDate} {e : JsError} (h : getTime d = .error e) :
    e = .typeError := by
  cases d with
  | date ms => simp [getTime] at h
  | str s =>
      simp only [getTime, Except.error.injEq] at h
      exact h.symm

theorem cmpBills_ok {a b : Bill} {c : Int} (h : cmpBills a b = .ok c) :
    ∃ x y, getTime a.dueDate = .ok x ∧ getTime b.dueDate = .ok y ∧ c = x - y := by
  unfold cmpBills at h
  cases ha : getTime a.dueDate with
  | error e => rw [ha] at h; exact absurd h (by simp)
  | ok x =>
      rw [ha] at h
      cases hb : getTime b.dueDate with
      | error e => rw [hb] at h; exact absurd h (by simp)
      | ok y =>
          rw [hb] at h
          refine ⟨x, y, rfl, rfl, ?_⟩
          cases h
          rfl

theorem cmpBills_error {a b : Bill} {e : JsError} (h : cmpBills a b = .error e) :
    e = .typeError := by
  unfold cmpBills at h
  cases ha : getTime a.dueDate with
  | error e' =>
      rw [ha] at h
      cases h
      exact getTime_error ha
  | ok x =>
      rw [ha] at h
      cases hb : getTime b.dueDate with
      | error e' =>
          rw [hb] at h
          cases h
          exact getTime_error hb
      | ok y => rw [hb] at h; exact absurd h (by simp)

theorem cmpBills_eval {a b : Bill} {x y : Int}
    (ha : getTime a.dueDate = .ok x) (hb : getTime b.dueDate = .ok y) :
    cmpBills a b = .ok (x - y) := by
  unfold cmpBills
  rw [ha, hb]

theorem insertE_perm {x : Bill} {acc acc' : List Bill}
    (h : insertE x acc = .ok acc') : acc'.Perm (x :: acc) := by
  induction acc generalizing acc' with
  | nil =>
      cases h
      exact List.Perm.refl _
  | cons y ys ih =>
      unfold insertE at h
      split at h
      · exact absurd h (by simp)
      · split at h
        · cases h
          exact List.Perm.refl _
        · split at h
          · exact absurd h (by simp)
          · rename_i c hc hlt zs hins
            cases h
            exact ((ih hins).cons y).trans (List.Perm.swap x y ys)

theorem insertE_error {x : Bill} {acc : List Bill} {e : JsError}
    (h : insertE x acc = .error e) : e = .typeError := by
  induction acc with
  | nil => exact absurd h (by simp [insertE])
  | cons y ys ih =>
      unfold insertE at h
      split at h
      · rename_i e' hc
        cases h
        exact cmpBills_error hc
      · split at h
        · exact absurd h (by simp)
        · split at h
          · rename_i c hc hlt e' hins
            cases h
            exact ih hins
          · exact absurd h (by simp)

theorem insertE_head {x : Bill} {ys zs : List Bill}
    (h : insertE x ys = .ok zs) :
    ∃ hd tl, zs = hd :: tl ∧ (hd = x ∨ ys.head? = some hd) := by
  cases ys with
  | nil =>
      cases h
      exact ⟨x, [], rfl, Or.inl rfl⟩
  | cons y ys' =>
      unfold insertE at h
      split at h
      · exact absurd h (by simp)
      · split at h
        · cases h
          exact ⟨x, y :: ys', rfl, Or.inl rfl⟩
        · split at h
          · exact absurd h (by simp)
          · rename_i c hc hlt zs' hins
            cases h
            exact ⟨y, zs', rfl, Or.inr rfl⟩

theorem chain'_key_le {y : Bill} {ys : List Bill} {ky : Int}
    (hs : (y :: ys).Chain' leKey) (hy : getTime y.dueDate = .ok ky) :
    ∀ z ∈ ys, ∃ kz, getTime z.dueDate = .ok kz ∧ ky ≤ kz := by
  induction ys generalizing y ky with
  | nil => intro z hz; exact absurd hz (List.not_mem_nil z)
  | cons z0 ys' ih =>
      have h1 : leKey y z0 := (List.chain'_cons.mp hs).1
      have h2 : (z0 :: ys').Chain' leKey := (List.chain'_cons.mp hs).2
      obtain ⟨a, b, ha, hb, hab⟩ := h1
      have hay : a = ky := by rw [ha] at hy; cases hy; rfl
      subst hay
      intro z hz
      rcases List.mem_cons.mp hz with hz0 | hz'
      · subst hz0
        exact ⟨b, hb, hab⟩
      · obtain ⟨kz, hkz, hle⟩ := ih h2 hb z hz'
        exact ⟨kz, hkz, le_trans hab hle⟩

theorem insertE_sorted {x : Bill} {acc acc' : List Bill}
    (h : insertE x acc = .ok acc') (hs : acc.Chain' leKey) :
    acc'.Chain' leKey := by
  induction acc generalizing acc' with
  | nil =>
      cases h
      exact List.chain'_singleton x
  | cons y ys ih =>
      unfold insertE at h
      split at h
      · exact absurd h (by simp)
      · split at h
        · rename_i c hc hlt
          cases h
          obtain ⟨kx, ky, hkx, hky, hceq⟩ := cmpBills_ok hc
          refine List.chain'_cons.mpr ⟨⟨kx, ky, hkx, hky, ?_⟩, hs⟩
          have : kx - ky < 0 := hceq ▸ hlt
          omega
        · split at h
          · exact absurd h (by simp)
          · rename_i s1 c hc hlt s2 zs hins
            cases h
            obtain ⟨kx, ky, hkx, hky, hceq⟩ := cmpBills_ok hc
            have hkyx : ky ≤ kx := by
              have : ¬ (c < 0) := hlt
              omega
            have htl : ys.Chain' leKey := (List.chain'_cons'.mp hs).2
            refine List.chain'_cons'.mpr ⟨?_, ih hins htl⟩
            intro hd hhd
            obtain ⟨hd', tl', hzs, hcase⟩ := insertE_head hins
            rw [hzs] at hhd
            simp only [List.head?_cons, Option.mem_def, Option.some.injEq] at hhd
            subst hhd
            rcases hcase with hhx | hhy
            · subst hhx
              exact ⟨ky, kx, hky, hkx, hkyx⟩
            · exact (List.chain'_cons'.mp hs).1 hd' hhy

theorem keyIs_of_ok {b : Bill} {k : Int} (h : getTime b.dueDate = .ok k) (t : Int) :
    keyIs t b = (k == t) := by
  simp [keyIs, h]

theorem insertE_filter {x : Bill} {acc acc' : List Bill}
    (h : insertE x acc = .ok acc') (hs : acc.Chain' leKey) (t : Int) :
    acc'.filter (keyIs t)
      = acc.filter (keyIs t) ++ if keyIs t x then [x] else [] := by
  induction acc generalizing acc' with
  | nil =>
      cases h
      by_cases hx : keyIs t x
      · simp [List.filter, hx]
      · simp [List.filter, hx]
  | cons y ys ih =>
      unfold insertE at h
      split at h
      · exact absurd h (by simp)
      · split at h
        · rename_i c hc hlt
          cases h
          obtain ⟨kx, ky, hkx, hky, hceq⟩ := cmpBills_ok hc
          have hxy : kx < ky := by omega
          by_cases hxt : kx = t
          · subst hxt
            have hxtrue : keyIs kx x = true := by
              rw [keyIs_of_ok hkx]; exact beq_self_eq_true kx
            have hyfalse : keyIs kx y = false := by
              rw [keyIs_of_ok hky]
              exact beq_eq_false_iff_ne.mpr (by omega)
            have hysnil : (y :: ys).filter (keyIs kx) = [] := by
              rw [List.filter_eq_nil_iff]
              intro z hz
              rcases List.mem_cons.mp hz with hz0 | hz'
              · subst hz0; simp [hyfalse]
              · obtain ⟨kz, hkz, hle⟩ := chain'_key_le hs hky z hz'
                rw [keyIs_of_ok hkz]
                simp only [Bool.not_eq_true]
                exact beq_eq_false_iff_ne.mpr (by omega)
            rw [hysnil, List.nil_append, if_pos hxtrue]
            rw [List.filter_cons_of_pos hxtrue, hysnil]
          · have hxfalse : keyIs t x = false := by
              rw [keyIs_of_ok hkx]
              exact beq_eq_false_iff_ne.mpr hxt
            rw [if_neg (by simp [hxfalse]), List.append_nil]
            rw [List.filter_cons_of_neg (by simp [hxfalse])]
        · split at h
          · exact absurd h (by simp)
          · rename_i c hc hlt zs hins
            cases h
            have htl : ys.Chain' leKey := (List.chain'_cons'.mp hs).2
            have ihz := ih hins htl
            by_cases hyt : keyIs t y
            · rw [List.filter_cons_of_pos hyt, List.filter_cons_of_pos hyt, ihz,
                List.cons_append]
            · rw [List.filter_cons_of_neg (by simp [hyt]),
                List.filter_cons_of_neg (by simp [hyt]), ihz]

theorem insertE_ok_keys {x y : Bill} {ys acc' : List Bill}
    (h : insertE x (y :: ys) = .ok acc') : okKey x ∧ okKey y := by
  unfold insertE at h
  split at h
  · exact absurd h (by simp)
  · rename_i c hc
    obtain ⟨kx, ky, hkx, hky, hceq⟩ := cmpBills_ok hc
    exact ⟨⟨kx, hkx⟩, ⟨ky, hky⟩⟩

theorem insertE_total {x : Bill} {acc : List Bill}
    (hx : okKey x) (hacc : ∀ z ∈ acc, okKey z) :
    ∃ acc', insertE x acc = .ok acc' := by
  induction acc with
  | nil => exact ⟨[x], rfl⟩
  | cons y ys ih =>
      obtain ⟨kx, hkx⟩ := hx
      obtain ⟨ky, hky⟩ := hacc y (List.mem_cons_self y ys)
      have hc : cmpBills x y = .ok (kx - ky) := cmpBills_eval hkx hky
      by_cases hlt : kx - ky < 0
      · exact ⟨x :: y :: ys, by unfold insertE; rw [hc]; simp [hlt]⟩
      · obtain ⟨zs, hzs⟩ := ih (fun z hz => hacc z (List.mem_cons_of_mem y hz))
        exact ⟨y :: zs, by unfold insertE; rw [hc]; simp [hlt, hzs]⟩

theorem sortGo_perm {l : List Bill} : ∀ {acc l' : List Bill},
    sortGo acc l = .ok l' → l'.Perm (acc ++ l) := by
  induction l with
  | nil =>
      intro acc l' h
      cases h
      simp
  | cons x xs ih =>
      intro acc l' h
      unfold sortGo at h
      split at h
      · rename_i acc' hins
        exact (ih h).trans (((insertE_perm hins).append_right xs).trans
          List.perm_middle.symm)
      · exact absurd h (by simp)

theorem sortGo_error {l : List Bill} : ∀ {acc : List Bill} {e : JsError},
    sortGo acc l = .error e → e = .typeError := by
  induction l with
  | nil =>
      intro acc e h
      exact absurd h (by simp [sortGo])
  | cons x xs ih =>
      intro acc e h
      unfold sortGo at h
      split at h
      · exact ih h
      · rename_i e' hins
        cases h
        exact insertE_error hins

theorem sortGo_sorted {l : List Bill} : ∀ {acc l' : List Bill},
    sortGo acc l = .ok l' → acc.Chain' leKey → l'.Chain' leKey := by
  induction l with
  | nil =>
      intro acc l' h hs
      cases h
      exact hs
  | cons x xs ih =>
      intro acc l' h hs
      unfold sortGo at h
      split at h
      · rename_i acc' hins
        exact ih h (insertE_sorted hins hs)
      · exact absurd h (by simp)

theorem sortGo_filter {l : List Bill} : ∀ {acc l' : List Bill},
    sortGo acc l = .ok l' → acc.Chain' leKey →
    ∀ t, l'.filter (keyIs t) = acc.filter (keyIs t) ++ l.filter (keyIs t) := by
  induction l with
  | nil =>
      intro acc l' h hs t
      cases h
      simp
  | cons x xs ih =>
      intro acc l' h hs t
      unfold sortGo at h
      split at h
      · rename_i acc' hins
        rw [ih h (insertE_sorted hins hs) t, insertE_filter hins hs t,
          List.append_assoc]
        congr 1
        by_cases hx : keyIs t x
        · rw [List.filter_cons_of_pos hx, if_pos hx]
          rfl
        · rw [List.filter_cons_of_neg (by simp [hx]), if_neg (by simp [hx])]
          rfl
      · exact absurd h (by simp)

theorem sortGo_okInv {l : List Bill} : ∀ {acc l' : List Bill},
    sortGo acc l = .ok l' →
    ((∀ z ∈ acc, okKey z) ∨ ∃ b, acc = [b]) →
    (∀ z ∈ l', okKey z) ∨ ∃ b, l' = [b] := by
  induction l with
  | nil =>
      intro acc l' h hinv
      cases h
      exact hinv
  | cons x xs ih =>
      intro acc l' h hinv
      unfold sortGo at h
      split at h
      · rename_i acc' hins
        apply ih h
        cases acc with
        | nil =>
            cases hins
            exact Or.inr ⟨x, rfl⟩
        | cons y ys =>
            obtain ⟨hokx, hoky⟩ := insertE_ok_keys hins
            have hOkAcc : ∀ z ∈ y :: ys, okKey z := by
              rcases hinv with hok | ⟨b, hb⟩
              · exact hok
              · cases hb
                intro z hz
                rcases List.mem_cons.mp hz with hz0 | hz'
                · subst hz0; exact hoky
                · exact absurd hz' (List.not_mem_nil z)
            refine Or.inl ?_
            intro z hz
            have hz' : z ∈ x :: y :: ys := (insertE_perm hins).mem_iff.mp hz
            rcases List.mem_cons.mp hz' with hz0 | hz''
            · subst hz0; exact hokx
            · exact hOkAcc z hz''
      · exact absurd h (by simp)

theorem sortGo_total {l : List Bill} : ∀ {acc : List Bill},
    (∀ z ∈ acc, okKey z) → (∀ z ∈ l, okKey z) →
    ∃ l', sortGo acc l = .ok l' := by
  induction l with
  | nil =>
      intro acc _ _
      exact ⟨acc, rfl⟩
  | cons x xs ih =>
      intro acc hacc hl
      obtain ⟨acc', hins⟩ := insertE_total (hl x (List.mem_cons_self x xs)) hacc
      have hacc' : ∀ z ∈ acc', okKey z := by
        intro z hz
        rcases List.mem_cons.mp ((insertE_perm hins).mem_iff.mp hz) with hz0 | hz'
        · rw [hz0]; exact hl x (List.mem_cons_self x xs)
        · exact hacc z hz'
      obtain ⟨l', hgo⟩ := ih hacc' (fun z hz => hl z (List.mem_cons_of_mem x hz))
      exact ⟨l', by unfold sortGo; rw [hins]; exact hgo⟩

theorem sortBillsE_ok_sorted {l l' : List Bill} (h : sortBillsE l = .ok l') :
    l'.Chain' leKey :=
  sortGo_sorted h List.chain'_nil

theorem sortBillsE_ok_perm {l l' : List Bill} (h : sortBillsE l = .ok l') :
    l'.Perm l := by
  have := sortGo_perm h
  simpa using this

theorem sortBillsE_ok_filter {l l' : List Bill} (h : sortBillsE l = .ok l') (t : Int) :
    l'.filter (keyIs t) = l.filter (keyIs t) := by
  have := sortGo_filter h List.chain'_nil t
  simpa using this

theorem sortBillsE_reject {l : List Bill} (hlen : 2 ≤ l.length)
    (hbad : ∃ b ∈ l, ¬ okKey b) : sortBillsE l = .error .typeError := by
  cases hres : sortBillsE l with
  | ok l' =>
      exfalso
      obtain ⟨b, hbmem, hbbad⟩ := hbad
      have hperm := sortBillsE_ok_perm hres
      have hinv := sortGo_okInv hres
        (Or.inl (fun z hz => absurd hz (List.not_mem_nil z)))
      rcases hinv with hok | ⟨b0, hb0⟩
      · exact hbbad (hok b (hperm.mem_iff.mpr hbmem))
      · have hl1 : l.length = 1 := by
          rw [← hperm.length_eq, hb0]
          rfl
        omega
  | error e =>
      have he : e = .typeError := sortGo_error hres
      rw [← he]

theorem sortBillsE_total {l : List Bill} (h : ∀ z ∈ l, okKey z) :
    ∃ l', sortBillsE l = .ok l' :=
  sortGo_total (fun z hz => absurd hz (List.not_mem_nil z)) h

theorem mergedBills_append (f : Bool) (n : Int)
    (pre post : List (Provider × CacheFile)) (p : Provider) (c : CacheFile) :
    mergedBills f n (pre ++ (p, c) :: post)
      = mergedBills f n pre ++ settledBills (providerTask f n p c)
        ++ mergedBills f n post := by
  simp [mergedBills, runTasks, List.append_assoc]

theorem providerTask_fresh {now ts : Int} {p : Provider} {bills : List Bill}
    (h : now - ts < CACHE_TTL) :
    providerTask false now p (.entry ts bills) = ⟨.ok bills, .entry ts bills, false⟩ := by
  simp [providerTask, h]

theorem providerTask_error_entry {force : Bool} {now ts : Int} {p : Provider}
    {bills : List Bill} {e : JsError} (hf : p.fetchResult = .error e) :
    (providerTask force now p (.entry ts bills)).settled = .ok bills := by
  cases force with
  | false =>
      by_cases h : now - ts < CACHE_TTL
      · simp [providerTask, h]
      · simp [providerTask, h, fetchPath, hf]
  | true => simp [providerTask, fetchPath, hf]

theorem providerTask_error_absent {force : Bool} {now : Int} {p : Provider}
    {e : JsError} (hf : p.fetchResult = .error e) :
    providerTask force now p .absent = ⟨.ok [], .absent, true⟩ := by
  cases force <;> simp [providerTask, fetchPath, hf]

theorem providerTask_force_fetchCalled (now : Int) (p : Provider) (cache : CacheFile) :
    (providerTask true now p cache).fetchCalled = true := by
  cases cache <;> cases hf : p.fetchResult <;> simp [providerTask, fetchPath, hf]

theorem providerTask_ok_fetch {force : Bool} {now : Int} {p : Provider}
    {cache : CacheFile} {v : FetchVal} (hf : p.fetchResult = .ok v)
    (hcalled : (providerTask force now p cache).fetchCalled = true) :
    (providerTask force now p cache).settled = .ok (normalizeFetch v) := by
  cases force with
  | false =>
      cases cache with
      | absent => simp [providerTask, fetchPath, hf]
      | corrupt => simp [providerTask] at hcalled
      | entry ts bills =>
          by_cases h : now - ts < CACHE_TTL
          · rw [providerTask_fresh h] at hcalled
            exact absurd hcalled (by simp)
          · simp [providerTask, h, fetchPath, hf]
  | true => cases cache <;> simp [providerTask, fetchPath, hf]

theorem fetchAllBills_ne_syntaxError (f : Bool) (n : Int)
    (run : List (Provider × CacheFile)) :
    fetchAllBills f n run ≠ .error .syntaxError := by
  intro h
  have : JsError.syntaxError = .typeError := sortGo_error h
  exact absurd this (by simp)

theorem fetchAllBills_shape (f : Bool) (n : Int)
    (run : List (Provider × CacheFile)) :
    (∃ l, fetchAllBills f n run = .ok l)
    ∨ fetchAllBills f n run = .error .typeError := by
  cases h : fetchAllBills f n run with
  | ok l => exact Or.inl ⟨l, rfl⟩
  | error e =>
      refine Or.inr ?_
      rw [sortGo_error h]

/-! Claim theorems. -/

/-- C1: for every provider whose cache file holds an entry younger than
24 hours, when the force-refresh flag is false `fetchAllBills` never calls
that provider's `fetch()` — its task reports `fetchCalled = false`, and
the task result is independent of whatever the fetch would have produced —
and the cached bills are exactly that provider's contribution to the
merged result. -/
theorem c1_freshness (now ts : Int) (p : Provider) (bills : List Bill)
    (hfresh : now - ts < CACHE_TTL) :
    (providerTask false now p (.entry ts bills)).fetchCalled = false
    ∧ (providerTask false now p (.entry ts bills)).settled = .ok bills
    ∧ (∀ r', providerTask false now { p with fetchResult := r' } (.entry ts bills)
        = providerTask false now p (.entry ts bills))
    ∧ ∀ pre post,
        mergedBills false now (pre ++ (p, .entry ts bills) :: post)
          = mergedBills false now pre ++ bills ++ mergedBills false now post := by
  refine ⟨?_, ?_, ?_, ?_⟩
  · rw [providerTask_fresh hfresh]
  · rw [providerTask_fresh hfresh]
  · intro r'
    rw [providerTask_fresh hfresh, providerTask_fresh hfresh]
  · intro pre post
    rw [mergedBills_append, providerTask_fresh hfresh]
    rfl

/-- Witness for C1: a concrete provider with a 1-second-old cache entry is
served from the cache and not fetched. -/
theorem c1_witness :
    (providerTask false 1000 provB (.entry 0 [strBill "d"])).fetchCalled = false
    ∧ (providerTask false 1000 provB (.entry 0 [strBill "d"])).settled
        = .ok [strBill "d"] :=
  ⟨(c1_freshness 1000 0 provB [strBill "d"] (by decide)).1,
   (c1_freshness 1000 0 provB [strBill "d"] (by decide)).2.1⟩

/-- C3: for every provider whose `fetch()` rejects, a parsable cache entry
of any age is returned unchanged as that provider's contribution to the
merged (concatenated) result, and with no cache file the provider
contributes the empty list while its task still fulfils. -/
theorem c3_stale_fallback (force : Bool) (now : Int) (p : Provider) (e : JsError)
    (hf : p.fetchResult = .error e) :
    (∀ ts bills,
        (providerTask force now p (.entry ts bills)).settled = .ok bills
        ∧ ∀ pre post,
            mergedBills force now (pre ++ (p, .entry ts bills) :: post)
              = mergedBills force now pre ++ bills ++ mergedBills force now post)
    ∧ (providerTask force now p .absent).settled = .ok []
    ∧ ∀ pre post,
        mergedBills force now (pre ++ (p, .absent) :: post)
          = mergedBills force now pre ++ mergedBills force now post := by
  refine ⟨fun ts bills => ⟨providerTask_error_entry hf, fun pre post => ?_⟩,
    ?_, fun pre post => ?_⟩
  · rw [mergedBills_append]
    have hset : settledBills (providerTask force now p (.entry ts bills)) = bills := by
      simp [settledBills, providerTask_error_entry hf]
    rw [hset]
  · rw [providerTask_error_absent hf]
  · rw [mergedBills_append]
    have hset : settledBills (providerTask force now p .absent) = [] := by
      simp [settledBills, providerTask_error_absent hf]
    rw [hset, List.append_nil]

/-- Witness for C3: a rejecting provider with an expired cache entry still
contributes that entry's bills, and with no cache contributes nothing. -/
theorem c3_witness :
    (providerTask false CACHE_TTL provA (.entry 0 [strBill "s"])).settled
        = .ok [strBill "s"]
    ∧ (providerTask false CACHE_TTL provA .absent).settled = .ok [] :=
  ⟨((c3_stale_fallback false CACHE_TTL provA (.thrown 0) rfl).1 0 [strBill "s"]).1,
   (c3_stale_fallback false CACHE_TTL provA (.thrown 0) rfl).2.1⟩

/-- C5 counterexample: a provider whose cache file is corrupt and whose
`fetch()` would succeed is nevertheless not fetched — `JSON.parse` throws
before the `try` block is reached, so the claim's "fetch() is still
invoked" fails on the code. -/
theorem c5_counterexample :
    provB.fetchResult = .ok (.many [dateBill 5])
    ∧ (providerTask false 0 provB .corrupt).fetchCalled = false :=
  ⟨rfl, rfl⟩

/-- C5 (amended): a corrupt cache file rejects the provider's mapped task
before `fetch()` is attempted (`fetchCalled = false`); `Promise.allSettled`
absorbs the rejection, so the provider contributes an empty list and the
corruption is never raised to the caller of `fetchAllBills`. -/
theorem c5_corrupt_cache_amended (now : Int) (p : Provider) :
    (providerTask false now p .corrupt).fetchCalled = false
    ∧ (providerTask false now p .corrupt).settled = .error .syntaxError
    ∧ settledBills (providerTask false now p .corrupt) = []
    ∧ ∀ force run, (∃ l, fetchAllBills force now run = Except.ok l)
        ∨ fetchAllBills force now run = .error .typeError :=
  ⟨rfl, rfl, rfl, fun force run => fetchAllBills_shape force now run⟩

/-- C6: with the force-refresh flag set, every provider's `fetch()` is
invoked regardless of the age of its cache entry, and the stale-cache
fallback on fetch failure remains available. -/
theorem c6_force_bypass (now : Int) (p : Provider) (cache : CacheFile) :
    (providerTask true now p cache).fetchCalled = true
    ∧ ∀ e ts bills, p.fetchResult = .error e → cache = .entry ts bills →
        (providerTask true now p cache).settled = .ok bills := by
  refine ⟨providerTask_force_fetchCalled now p cache, ?_⟩
  intro e ts bills hf hc
  subst hc
  exact providerTask_error_entry hf

/-- Witness for C6: under force-refresh a provider with a zero-age cache
entry is still fetched, and on failure falls back to that entry. -/
theorem c6_witness :
    (providerTask true 0 provA (.entry 0 [strBill "s"])).fetchCalled = true
    ∧ (providerTask true 0 provA (.entry 0 [strBill "s"])).settled
        = .ok [strBill "s"] :=
  ⟨(c6_force_bypass 0 provA (.entry 0 [strBill "s"])).1,
   (c6_force_bypass 0 provA (.entry 0 [strBill "s"])).2 (.thrown 0) 0 [strBill "s"]
     rfl rfl⟩

/-- C8: the derived status is `overdue` strictly before `now`, `due` from
`now` through `now + 7` days inclusive, `pending` after, and is never
`paid`; exactly one of the three values results for every due date. -/
theorem c8_status_derivation (now d : Int) :
    (d < now → determineStatus now d = .overdue)
    ∧ (now ≤ d → d ≤ now + 7 * 24 * 60 * 60 * 1000 → determineStatus now d = .due)
    ∧ (now + 7 * 24 * 60 * 60 * 1000 < d → determineStatus now d = .pending)
    ∧ determineStatus now d ≠ .paid
    ∧ (determineStatus now d = .overdue ∨ determineStatus now d = .due
        ∨ determineStatus now d = .pending) := by
  unfold determineStatus
  by_cases h1 : d < now
  · rw [if_pos h1]
    exact ⟨fun _ => rfl, fun hn _ => by omega, fun hp => by omega, by simp,
      Or.inl rfl⟩
  · rw [if_neg h1]
    by_cases h2 : d ≤ now + 7 * 24 * 60 * 60 * 1000
    · rw [if_pos h2]
      exact ⟨fun hd => absurd hd h1, fun _ _ => rfl, fun hp => by omega, by simp,
        Or.inr (Or.inl rfl)⟩
    · rw [if_neg h2]
      exact ⟨fun hd => absurd hd h1, fun _ hd => absurd hd h2, fun _ => rfl,
        by simp, Or.inr (Or.inr rfl)⟩

/-- Witness for C8 at the spec's example instants: now = 2024-02-15,
due dates 2024-02-10, 2024-02-18 and 2024-03-01 (epoch milliseconds). -/
theorem c8_witness :
    determineStatus 1707955200000 1707523200000 = .overdue
    ∧ determineStatus 1707955200000 1708214400000 = .due
    ∧ determineStatus 1707955200000 1709251200000 = .pending :=
  ⟨(c8_status_derivation 1707955200000 1707523200000).1 (by decide),
   (c8_status_derivation 1707955200000 1708214400000).2.1 (by decide) (by decide),
   (c8_status_derivation 1707955200000 1709251200000).2.2.1 (by decide)⟩

/-- C2 counterexample: provider A rejects but has an expired cache entry
(whose bills carry JSON string due dates), provider B resolves with one
bill; `fetchAllBills` then rejects with a `TypeError` from the sort
comparator instead of resolving, so the claim's "fetchAllBills resolves"
fails as universally stated. -/
theorem c2_counterexample :
    provA.fetchResult = .error (.thrown 0)
    ∧ provB.fetchResult = .ok (.many [dateBill 5])
    ∧ fetchAllBills false CACHE_TTL
        [(provA, .entry 0 [strBill "2024-01-01"]), (provB, .absent)]
      = .error .typeError :=
  ⟨rfl, rfl, rfl⟩

/-- C2 (amended): when provider A's `fetch()` rejects and it has no cache
file while provider B's `fetch()` is invoked and resolves with bills whose
due dates are `Date`s, `fetchAllBills` resolves and its result contains
B's bills; A's error is never the outcome. -/
theorem c2_fault_isolation_amended (now : Int) (A B : Provider) (cb : CacheFile)
    (e : JsError) (v : FetchVal)
    (hA : A.fetchResult = .error e) (hB : B.fetchResult = .ok v)
    (hBfetched : (providerTask false now B cb).fetchCalled = true)
    (hdates : ∀ b ∈ normalizeFetch v, okKey b) :
    ∃ l', fetchAllBills false now [(A, .absent), (B, cb)] = .ok l'
      ∧ ∀ b ∈ normalizeFetch v, b ∈ l' := by
  have hAtask : providerTask false now A .absent = ⟨.ok [], .absent, true⟩ :=
    providerTask_error_absent hA
  have hBtask : (providerTask false now B cb).settled = .ok (normalizeFetch v) :=
    providerTask_ok_fetch hB hBfetched
  have hmerge : mergedBills false now [(A, .absent), (B, cb)] = normalizeFetch v := by
    simp [mergedBills, runTasks, settledBills, hAtask, hBtask]
  unfold fetchAllBills
  rw [hmerge]
  obtain ⟨l', hl'⟩ := sortBillsE_total hdates
  refine ⟨l', hl', ?_⟩
  intro b hb
  exact (sortBillsE_ok_perm hl').mem_iff.mpr hb

/-- Witness for C2 (amended) at a concrete pair of providers. -/
theorem c2_witness :
    ∃ l', fetchAllBills false CACHE_TTL [(provA, .absent), (provB, .absent)] = .ok l'
      ∧ ∀ b ∈ normalizeFetch (.many [dateBill 5]), b ∈ l' :=
  c2_fault_isolation_amended CACHE_TTL provA provB .absent (.thrown 0)
    (.many [dateBill 5]) rfl rfl rfl
    (by
      intro b hb
      simp only [normalizeFetch, List.mem_singleton] at hb
      subst hb
      exact ⟨5, rfl⟩)

/-- C4: bills written through `saveCache` (hence read back from a cache
file) carry their due date as a JSON string, not a `Date`; and any run
whose merged list has at least two bills, at least one of them carrying a
string due date, makes the sort comparator call `.getTime()` on a string
so that `fetchAllBills` rejects with a `TypeError` instead of returning a
bill list. -/
theorem c4_cache_strings_break_sort :
    (∀ now bills, saveCache now bills = .entry now (bills.map jsonBill)
        ∧ ∀ b ∈ bills.map jsonBill, ∃ s, b.dueDate = .str s)
    ∧ ∀ force now run, 2 ≤ (mergedBills force now run).length →
        (∃ b ∈ mergedBills force now run, ∃ s, b.dueDate = .str s) →
        fetchAllBills force now run = .error .typeError := by
  constructor
  · intro now bills
    refine ⟨rfl, ?_⟩
    intro b hb
    obtain ⟨a, ha, hba⟩ := List.mem_map.mp hb
    rw [← hba]
    cases hd : a.dueDate with
    | date ms => exact ⟨toISOString ms, by simp [jsonBill, jsonDate, hd]⟩
    | str s => exact ⟨s, by simp [jsonBill, jsonDate, hd]⟩
  · intro force now run hlen hbad
    obtain ⟨b, hbm, s, hbs⟩ := hbad
    have hnot : ¬ okKey b := by
      rintro ⟨k, hk⟩
      rw [hbs] at hk
      simp [getTime] at hk
    unfold fetchAllBills
    exact sortBillsE_reject hlen ⟨b, hbm, hnot⟩

/-- Witness for C4: a run mixing one stale-cache bill (string due date)
with one fetched bill rejects with a `TypeError`. -/
theorem c4_witness :
    fetchAllBills false CACHE_TTL
        [(provA, .entry 0 [strBill "x"]), (provB, .absent)]
      = .error .typeError :=
  c4_cache_strings_break_sort.2 false CACHE_TTL
    [(provA, .entry 0 [strBill "x"]), (provB, .absent)]
    (by decide)
    ⟨strBill "x", by decide, ⟨"x", rfl⟩⟩

/-- C7: whenever `fetchAllBills` resolves, the returned list is sorted
ascending by due date (each adjacent pair has both `getTime` calls succeed
with non-decreasing keys), bills with equal due date keep their
merge-arrival order (the filter at every key is unchanged), and the result
is a permutation of the merged list. -/
theorem c7_sorted_stable (force : Bool) (now : Int)
    (run : List (Provider × CacheFile)) (l' : List Bill)
    (h : fetchAllBills force now run = .ok l') :
    l'.Chain' leKey
    ∧ (∀ t, l'.filter (keyIs t) = (mergedBills force now run).filter (keyIs t))
    ∧ l'.Perm (mergedBills force now run) :=
  ⟨sortBillsE_ok_sorted h, fun t => sortBillsE_ok_filter h t, sortBillsE_ok_perm h⟩

/-- Witness for C7 at the spec's ordering example (keys 301, 210, 220
arriving in that order come back as 210, 220, 301). -/
theorem c7_witness :
    fetchAllBills false 0 [(provC, .absent), (provD, .absent), (provE, .absent)]
      = .ok [dateBill 210, dateBill 220, dateBill 301]
    ∧ List.Chain' leKey [dateBill 210, dateBill 220, dateBill 301]
    ∧ ([dateBill 210, dateBill 220, dateBill 301]).Perm
        (mergedBills false 0 [(provC, .absent), (provD, .absent), (provE, .absent)]) :=
  ⟨rfl,
   (c7_sorted_stable false 0 [(provC, .absent), (provD, .absent), (provE, .absent)]
      [dateBill 210, dateBill 220, dateBill 301] rfl).1,
   (c7_sorted_stable false 0 [(provC, .absent), (provD, .absent), (provE, .absent)]
      [dateBill 210, dateBill 220, dateBill 301] rfl).2.2⟩

/-- Unfolding of `tryRestoreSession` on a parsed record. -/
theorem tryRestore_record (now : Int) (r : ATT.SessionData) (env : ATT.BrowserEnv) :
    ATT.tryRestoreSession now (.record r) env
      = if r.expiresAt ≠ 0 ∧ now > r.expiresAt then false
        else (ATT.jsIncludes env.urlAfterRestore "overview"
          || ATT.jsIncludes env.urlAfterRestore "myatt") := rfl

/-- C9 counterexample: a record whose `expiresAt` (100) lies in the future
of `now` (50) still triggers the login sequence when the restore
verification fails (the reported URL contains neither marker), so the
claim's "never invokes the login sequence" fails on the code. -/
theorem c9_counterexample :
    (50 : Int) < 100
    ∧ (ATT.ensureSession 50 (.record ⟨0, 100, []⟩) ⟨"about:blank", ""⟩).1 = true :=
  ⟨by decide, by decide⟩

/-- C9 (amended): for a record with `expiresAt` in the future, the login
sequence is not invoked exactly when the restore verification succeeds
(the post-restore URL contains `overview` or `myatt`), in which case only
restore-and-verify runs and the session file is untouched; when
verification fails, login is invoked as the fallback. -/
theorem c9_session_reuse_amended (now : Int) (r : ATT.SessionData)
    (env : ATT.BrowserEnv) (hfuture : now < r.expiresAt) :
    ((ATT.jsIncludes env.urlAfterRestore "overview"
        || ATT.jsIncludes env.urlAfterRestore "myatt") = true →
      ATT.ensureSession now (.record r) env = (false, .record r))
    ∧ ((ATT.jsIncludes env.urlAfterRestore "overview"
        || ATT.jsIncludes env.urlAfterRestore "myatt") = false →
      (ATT.ensureSession now (.record r) env).1 = true) := by
  have hexp : ¬ (r.expiresAt ≠ 0 ∧ now > r.expiresAt) := by
    rintro ⟨_, hgt⟩
    omega
  have hrestore : ATT.tryRestoreSession now (.record r) env
      = (ATT.jsIncludes env.urlAfterRestore "overview"
        || ATT.jsIncludes env.urlAfterRestore "myatt") := by
    rw [tryRestore_record, if_neg hexp]
  constructor
  · intro hverify
    unfold ATT.ensureSession
    rw [hrestore, hverify]
    simp
  · intro hverify
    unfold ATT.ensureSession
    rw [hrestore, hverify]
    simp

/-- Witness for C9 (amended): with the authenticated overview URL reported
after cookie injection, no login happens and the file is unchanged. -/
theorem c9_witness :
    ATT.ensureSession 50 (.record ⟨0, 100, []⟩)
        ⟨"https://www.att.com/acctmgmt/overview", ""⟩
      = (false, .record ⟨0, 100, []⟩) :=
  (c9_session_reuse_amended 50 ⟨0, 100, []⟩
    ⟨"https://www.att.com/acctmgmt/overview", ""⟩ (by decide)).1 (by decide)

/-- C10: a session record saved by `saveSession` whose `expiresAt` has
passed makes `ensureSession` invoke the login sequence and overwrite the
file with a fresh record whose `expiresAt` equals its save time plus
exactly 24 hours. -/
theorem c10_session_expiry (now t : Int) (env0 env : ATT.BrowserEnv)
    (r : ATT.SessionData) (hsaved : r = ATT.saveSession t env0) (ht : 0 ≤ t)
    (hpast : r.expiresAt < now) :
    ATT.ensureSession now (.record r) env
      = (true, .record (ATT.saveSession now env))
    ∧ (ATT.saveSession now env).expiresAt
        = (ATT.saveSession now env).savedAt + 24 * 60 * 60 * 1000 := by
  constructor
  · have hexpval : r.expiresAt = t + 24 * 60 * 60 * 1000 := by
      rw [hsaved]
      rfl
    have hcond : r.expiresAt ≠ 0 ∧ now > r.expiresAt := ⟨by omega, hpast⟩
    have hrestore : ATT.tryRestoreSession now (.record r) env = false := by
      rw [tryRestore_record, if_pos hcond]
    unfold ATT.ensureSession
    rw [hrestore]
    simp
  · rfl

/-- Witness for C10: a record saved at time 0 expires at 86400000; at
time 86400001 login runs and the file is overwritten with savedAt
86400001 and expiresAt 86400001 + 24h. -/
theorem c10_witness :
    ATT.ensureSession 86400001 (.record (ATT.saveSession 0 ⟨"", ""⟩))
        ⟨"", "sid=xyz"⟩
      = (true, .record (ATT.saveSession 86400001 ⟨"", "sid=xyz"⟩))
    ∧ (ATT.saveSession 86400001 ⟨"", "sid=xyz"⟩).expiresAt
        = (ATT.saveSession 86400001 ⟨"", "sid=xyz"⟩).savedAt + 24 * 60 * 60 * 1000 :=
  c10_session_expiry 86400001 0 ⟨"", ""⟩ ⟨"", "sid=xyz"⟩
    (ATT.saveSession 0 ⟨"", ""⟩) rfl (by decide) (by decide)

end BillTracker
